import Mathlib

/-!
Verification of `decrypt_pageprops_a.py` (UniteDrafter).

Shallow embedding conventions:
* Python `str` values are modelled as `List Char`; Python `bytes` as
  `List Nat` with every element below 256.
* Fallible Python code (exceptions) is modelled with `Except String`.
* Python library calls (`str.strip`, `base64.b64decode`, `hashlib.sha256`,
  `AES.new(..., MODE_CTR, ...)`, `json.dumps`, `json.loads`, UTF-8
  encode/decode) are modelled from their documented CPython 3.11 behaviour;
  each model carries a doc comment naming its scope.
-/

/-- The character code 34, i.e. the double-quote character. -/
def dquo : Char := Char.ofNat 34

/-- The character code 39, i.e. the single-quote character. -/
def squo : Char := Char.ofNat 39

/-- Whitespace recognised by Python `str.strip()` with no argument
(modelled on the ASCII whitespace characters: space, tab, newline,
vertical tab, form feed, carriage return; other Unicode whitespace is
outside the modelled scope and never produced by the program). -/
def pySpace (c : Char) : Bool :=
  c = ' ' || c = '\t' || c = '\n' || c = Char.ofNat 11 || c = Char.ofNat 12 || c = '\r'

/-- Remove the longest run of characters satisfying `p` from both ends of a
list: the model of Python `str.strip(chars)`, which deletes ALL leading and
trailing characters drawn from the set, not merely one layer. -/
def stripWhile (p : Char → Bool) (l : List Char) : List Char :=
  ((l.dropWhile p).reverse.dropWhile p).reverse

/-- Model of Python `str.strip()` (no argument). -/
def pyStrip (l : List Char) : List Char := stripWhile pySpace l

/-- The base64 standard alphabet, in value order. -/
def b64chars : List Char :=
  ['A','B','C','D','E','F','G','H','I','J','K','L','M','N','O','P',
   'Q','R','S','T','U','V','W','X','Y','Z',
   'a','b','c','d','e','f','g','h','i','j','k','l','m','n','o','p',
   'q','r','s','t','u','v','w','x','y','z',
   '0','1','2','3','4','5','6','7','8','9','+','/']

/-- The 6-bit value of a base64 alphabet character, `none` for any other
character (which lax `binascii.a2b_base64` discards). -/
def b64val (c : Char) : Option Nat := b64chars.findIdx? (fun x => x = c)

/-- Model of CPython 3.11 `binascii.a2b_base64` in lax (non-strict) mode:
characters outside the alphabet are discarded; a padding character is
ignored unless at least two sextets of the current quad have been seen and
enough consecutive pads accumulate to complete it, in which case decoding
stops and the rest of the input is ignored; at end of input an incomplete
quad is an error (a lone extra data character gets the dedicated message).
`quadPos` counts data characters seen in the current quad, `leftchar` holds
the pending accumulated bits, `pads` counts pads since the last data
character, and `acc` holds the output bytes in reverse. -/
def a2bBase64 : List Char → Nat → Nat → Nat → List Nat → Except String (List Nat)
  | [], quadPos, _, _, acc =>
      if quadPos = 0 then .ok acc.reverse
      else if quadPos = 1 then
        .error "Invalid base64-encoded string: number of data characters cannot be 1 more than a multiple of 4"
      else .error "Incorrect padding"
  | c :: rest, quadPos, leftchar, pads, acc =>
      if c = '=' then
        if 2 ≤ quadPos then
          if 4 ≤ quadPos + (pads + 1) then .ok acc.reverse
          else a2bBase64 rest quadPos leftchar (pads + 1) acc
        else a2bBase64 rest quadPos leftchar pads acc
      else
        match b64val c with
        | none => a2bBase64 rest quadPos leftchar pads acc
        | some v =>
          match quadPos with
          | 0 => a2bBase64 rest 1 v 0 acc
          | 1 => a2bBase64 rest 2 ((leftchar * 64 + v) % 16) 0 ((leftchar * 64 + v) / 16 :: acc)
          | 2 => a2bBase64 rest 3 ((leftchar * 64 + v) % 4) 0 ((leftchar * 64 + v) / 4 :: acc)
          | _ => a2bBase64 rest 0 0 0 ((leftchar * 64 + v) :: acc)

/-- Model of `base64.b64decode` on a `str` argument with `validate=False`:
the string must be ASCII, then the bytes go through lax `a2b_base64`. -/
def pyB64decode (s : List Char) : Except String (List Nat) :=
  if s.any (fun c => 128 ≤ c.toNat) then
    .error "string argument should contain only ASCII characters"
  else a2bBase64 s 0 0 0 []

/-- `b64decode_loose` from the source: strip whitespace, translate the
URL-safe alphabet to the standard one, reject outright a length of
1 mod 4, re-pad a length of 2 or 3 mod 4, then standard decode. -/
def b64decode_loose (l : List Char) : Except String (List Nat) :=
  let s := (pyStrip l).map (fun c => if c = '-' then '+' else if c = '_' then '/' else c)
  let m := s.length % 4
  if m = 1 then .error "Invalid base64 length (mod 4 == 1). Likely wrong blob split."
  else pyB64decode (if m = 2 ∨ m = 3 then s ++ List.replicate (4 - m) '=' else s)

/-- The alphabet character for a 6-bit value. -/
def encByte (n : Nat) : Char := b64chars.getD n 'A'

/-- Standard padded base64 encoding of a byte list (the reference encoding
named by the spec; used to state the round-trip properties). -/
def b64encode : List Nat → List Char
  | b0 :: b1 :: b2 :: rest =>
      encByte (b0 / 4) :: encByte (b0 % 4 * 16 + b1 / 16) ::
      encByte (b1 % 16 * 4 + b2 / 64) :: encByte (b2 % 64) :: b64encode rest
  | [b0, b1] => [encByte (b0 / 4), encByte (b0 % 4 * 16 + b1 / 16), encByte (b1 % 16 * 4), '=']
  | [b0] => [encByte (b0 / 4), encByte (b0 % 4 * 16), '=', '=']
  | [] => []

/-- The blob trimming performed by `split_blob_guess` before any candidate
is generated: `blob.strip().strip(DOUBLEQUOTE).strip(SINGLEQUOTE)`. -/
def trimBlob (l : List Char) : List Char :=
  stripWhile (fun c => c = squo) (stripWhile (fun c => c = dquo) (pyStrip l))

/-- The ordered key-length guesses of the suffix strategy. -/
def keyLenGuesses : List Nat := [21, 22, 20, 23]

/-- A split candidate, in the source's order: (key_str, enc_b64). -/
abbrev SplitCand := List Char × List Char

/-- The suffix-length candidates, built by the source's `for key_len in
(21, 22, 20, 23)` loop: a guess is skipped when `L <= key_len + 10`. -/
def suffixCandidates (blob : List Char) : List SplitCand :=
  keyLenGuesses.foldl
    (fun acc k =>
      if blob.length ≤ k + 10 then acc
      else acc ++ [(blob.drop (blob.length - k), blob.take (blob.length - k))])
    []

/-- Index of the last occurrence of `c`, the model of Python `str.rfind`
(with `none` for the -1 "absent" result). -/
def rfindIdx (l : List Char) (c : Char) : Option Nat :=
  match l.reverse.findIdx? (fun x => x = c) with
  | some j => some (l.length - 1 - j)
  | none => none

/-- The full candidate list of `split_blob_guess`: the suffix-length
candidates, with the last-`=` delimiter candidate inserted at the front
when the `=` sits at an index below `L - 5` and the text after it has
length between 18 and 30. -/
def candidatesOf (blob : List Char) : List SplitCand :=
  let base := suffixCandidates blob
  match rfindIdx blob '=' with
  | none => base
  | some i =>
      if i < blob.length - 5 then
        let possibleKey := blob.drop (i + 1)
        let possibleEnc := blob.take (i + 1)
        if 18 ≤ possibleKey.length ∧ possibleKey.length ≤ 30 then
          (possibleKey, possibleEnc) :: base
        else base
      else base

/-- One attempted candidate's diagnostic: key prefix (8 chars), ciphertext
length, decode error text. -/
def diagLine (e : List Char × Nat × String) : String :=
  "- key~" ++ String.mk e.1 ++ "..., enc_len=" ++ toString e.2.1 ++ ": " ++ e.2.2

/-- The validation loop of `split_blob_guess`: return the first candidate
whose ciphertext half decodes under `b64decode_loose`, accumulating a
diagnostic line per failed attempt (at most 8 are reported). -/
def firstValidSplit : List SplitCand → List (List Char × Nat × String) →
    Except String SplitCand
  | [], errors =>
      .error ("Could not split blob into (key_str, enc_b64). Attempts:\n" ++
        String.intercalate "\n" ((errors.take 8).map diagLine))
  | (keyStr, encB64) :: rest, errors =>
      match b64decode_loose encB64 with
      | .ok _ => .ok (keyStr, encB64)
      | .error e => firstValidSplit rest (errors ++ [(keyStr.take 8, encB64.length, e)])

/-- `split_blob_guess` from the source: trim, generate candidates, return
the first that decodes. -/
def split_blob_guess (blob : List Char) : Except String SplitCand :=
  firstValidSplit (candidatesOf (trimBlob blob)) []

/-- A JSON value as produced by Python `json.load`: objects are Python
dicts modelled as association lists in insertion order (Python dict keys
are unique, so lists with duplicate keys correspond to no Python value),
arrays are lists, strings are `List Char`. Numbers are modelled as
integers; floating-point JSON numbers are outside the modelled scope and
never arise in the verified properties. -/
inductive Json where
  | null : Json
  | bool (b : Bool) : Json
  | num (n : Int) : Json
  | str (s : List Char) : Json
  | arr (elems : List Json) : Json
  | obj (fields : List (List Char × Json)) : Json

/-- Model of Python `dict.get` on a JSON object: the value of the (unique)
binding of `k`, here the first binding. -/
def getKey (kvs : List (List Char × Json)) (k : List Char) : Option Json :=
  match kvs.find? (fun p => p.1 == k) with
  | some p => some p.2
  | none => none

/-- The dict key "pageProps". -/
def pagePropsKey : List Char := "pageProps".data

/-- The dict key "a". -/
def aKey : List Char := "a".data

/-- The dict key "props". -/
def propsKey : List Char := "props".data

/-- The direct check shared by both lookup paths of `find_pageprops_a`:
the value at `pageProps` must be a dict whose `a` is a string. -/
def directA (kvs : List (List Char × Json)) : Option (List Char) :=
  match getKey kvs pagePropsKey with
  | some (.obj pp) =>
      (match getKey pp aKey with
       | some (.str a) => some a
       | _ => none)
  | _ => none

mutual

/-- The inner `rec` of `find_pageprops_a`: check this node's
`pageProps`/`a`, then recurse depth-first into dict values and list
elements. -/
def findRec : Json → Option (List Char)
  | .obj kvs =>
      (match getKey kvs pagePropsKey with
       | some (.obj pp) =>
          (match getKey pp aKey with
           | some (.str a) => some a
           | _ => findRecFields kvs)
       | _ => findRecFields kvs)
  | .arr xs => findRecElems xs
  | _ => none

/-- `rec` over the values of a dict, in insertion order. -/
def findRecFields : List (List Char × Json) → Option (List Char)
  | [] => none
  | (_, v) :: rest =>
      (match findRec v with
       | some a => some a
       | none => findRecFields rest)

/-- `rec` over the elements of a list, in order. -/
def findRecElems : List Json → Option (List Char)
  | [] => none
  | x :: rest =>
      (match findRec x with
       | some a => some a
       | none => findRecElems rest)

end

/-- `find_pageprops_a` from the source: try `data.pageProps.a`, then
`data.props.pageProps.a`, then the recursive search. -/
def find_pageprops_a (data : Json) : Option (List Char) :=
  let direct :=
    match data with
    | .obj kvs =>
        (match directA kvs with
         | some a => some a
         | none =>
            match getKey kvs propsKey with
            | some (.obj pkvs) => directA pkvs
            | _ => none)
    | _ => none
  match direct with
  | some a => some a
  | none => findRec data

mutual

/-- Written from the spec's words for the Locator claim: the strings
sitting at a `pageProps.a` location anywhere in the value, listed in
depth-first pre-order (a node's own `pageProps.a` string first, then its
children in insertion order). -/
def ppaDFS : Json → List (List Char)
  | .obj kvs =>
      (match getKey kvs pagePropsKey with
       | some (.obj pp) =>
          (match getKey pp aKey with
           | some (.str a) => [a]
           | _ => [])
       | _ => []) ++ ppaDFSFields kvs
  | .arr xs => ppaDFSElems xs
  | _ => []

/-- Depth-first `pageProps.a` strings below a dict's values. -/
def ppaDFSFields : List (List Char × Json) → List (List Char)
  | [] => []
  | (_, v) :: rest => ppaDFS v ++ ppaDFSFields rest

/-- Depth-first `pageProps.a` strings below a list's elements. -/
def ppaDFSElems : List Json → List (List Char)
  | [] => []
  | x :: rest => ppaDFS x ++ ppaDFSElems rest

end

/-- Written from the spec's words for the Locator claim: the string at
`pageProps.a` of the root, if any. -/
def specPagePropsA (v : Json) : Option (List Char) :=
  match v with
  | .obj kvs =>
      (match getKey kvs pagePropsKey with
       | some (.obj pp) =>
          (match getKey pp aKey with
           | some (.str a) => some a
           | _ => none)
       | _ => none)
  | _ => none

/-- Written from the spec's words: the string at `props.pageProps.a`. -/
def specPropsPagePropsA (v : Json) : Option (List Char) :=
  match v with
  | .obj kvs =>
      (match getKey kvs propsKey with
       | some p => specPagePropsA p
       | none => none)
  | _ => none

/-- Written from the spec's words: `pageProps.a`, else
`props.pageProps.a`, else the first string at any nested `pageProps.a` in
depth-first order, else not found. -/
def locatorSpec (data : Json) : Option (List Char) :=
  match specPagePropsA data with
  | some a => some a
  | none =>
      match specPropsPagePropsA data with
      | some a => some a
      | none => (ppaDFS data).head?

/-- The locate step of `main`: `blob = find_pageprops_a(data)` followed by
`if not blob: raise SystemExit(...)`. Python truthiness makes the test
fail both for `None` and for the empty string. -/
def mainLocate (data : Json) : Except String (List Char) :=
  match find_pageprops_a data with
  | some b =>
      if b.isEmpty then .error "Could not find pageProps.a in the provided JSON."
      else .ok b
  | none => .error "Could not find pageProps.a in the provided JSON."

/-- Lowercase hex digit. -/
def hexDigit (n : Nat) : Char := "0123456789abcdef".data.getD n '0'

/-- JSON string escaping for one character (the two-character escapes,
a four-digit hex escape for other control characters, everything else
verbatim as in `ensure_ascii=False` serialization). -/
def escapeChar (c : Char) : List Char :=
  if c = dquo then ['\\', dquo]
  else if c = '\\' then ['\\', '\\']
  else if c = '\n' then ['\\', 'n']
  else if c = '\t' then ['\\', 't']
  else if c = '\r' then ['\\', 'r']
  else if c = Char.ofNat 8 then ['\\', 'b']
  else if c = Char.ofNat 12 then ['\\', 'f']
  else if c.toNat < 32 then
    ['\\', 'u', '0', '0', hexDigit (c.toNat / 16), hexDigit (c.toNat % 16)]
  else [c]

/-- JSON string escaping. -/
def escapeStr (s : List Char) : List Char := s.flatMap escapeChar

/-- Decimal digits of a natural number, accumulator form. -/
def natToDigitsAux : Nat → List Char → List Char
  | 0, acc => acc
  | n + 1, acc => natToDigitsAux ((n + 1) / 10) (Char.ofNat (48 + (n + 1) % 10) :: acc)

/-- Decimal representation of a natural number. -/
def natToDigits (n : Nat) : List Char := if n = 0 then ['0'] else natToDigitsAux n []

/-- Decimal representation of an integer. -/
def intToChars (i : Int) : List Char :=
  if i < 0 then '-' :: natToDigits i.natAbs else natToDigits i.natAbs

mutual

/-- A canonical compact JSON serialization of the model (a valid
`plaintext JSON serialization` in the sense of the round-trip claim;
string escaping as in Python `json.dumps` with `ensure_ascii=False`,
no whitespace). -/
def dumps : Json → List Char
  | .null => ['n', 'u', 'l', 'l']
  | .bool b => if b then ['t', 'r', 'u', 'e'] else ['f', 'a', 'l', 's', 'e']
  | .num i => intToChars i
  | .str s => dquo :: (escapeStr s ++ [dquo])
  | .arr [] => ['[', ']']
  | .arr (v :: vs) => '[' :: (dumps v ++ dumpsElems vs ++ [']'])
  | .obj [] => ['{', '}']
  | .obj ((k, v) :: kvs) =>
      '{' :: (dquo :: (escapeStr k ++ [dquo, ':'] ++ dumps v ++ dumpsFields kvs ++ ['}']))

/-- Comma-separated remaining array elements. -/
def dumpsElems : List Json → List Char
  | [] => []
  | v :: vs => ',' :: (dumps v ++ dumpsElems vs)

/-- Comma-separated remaining object members. -/
def dumpsFields : List (List Char × Json) → List Char
  | [] => []
  | (k, v) :: kvs =>
      ',' :: (dquo :: (escapeStr k ++ [dquo, ':'] ++ dumps v ++ dumpsFields kvs))

end

/-- JSON whitespace accepted between tokens by `json.loads`. -/
def jsonWS (c : Char) : Bool := c = ' ' || c = '\t' || c = '\n' || c = '\r'

/-- Skip JSON whitespace. -/
def skipWS (l : List Char) : List Char := l.dropWhile jsonWS

/-- Value of a hex digit. -/
def hexVal (c : Char) : Option Nat :=
  if 48 ≤ c.toNat ∧ c.toNat ≤ 57 then some (c.toNat - 48)
  else if 97 ≤ c.toNat ∧ c.toNat ≤ 102 then some (c.toNat - 87)
  else if 65 ≤ c.toNat ∧ c.toNat ≤ 70 then some (c.toNat - 55)
  else none

/-- Body of a JSON string after the opening quote: the unescaped
characters and the input after the closing quote. Lone-surrogate `u`
escapes, which Python `json.loads` tolerates, are outside the modelled
scope (`Char` cannot carry them) and are rejected. -/
def parseStringBody : List Char → Except String (List Char × List Char)
  | [] => .error "Unterminated string"
  | c :: rest =>
      if c = dquo then .ok ([], rest)
      else if c = '\\' then
        match rest with
        | [] => .error "Unterminated string"
        | e :: r =>
            if e = dquo then (parseStringBody r).map (fun p => (dquo :: p.1, p.2))
            else if e = '\\' then (parseStringBody r).map (fun p => ('\\' :: p.1, p.2))
            else if e = '/' then (parseStringBody r).map (fun p => ('/' :: p.1, p.2))
            else if e = 'n' then (parseStringBody r).map (fun p => ('\n' :: p.1, p.2))
            else if e = 't' then (parseStringBody r).map (fun p => ('\t' :: p.1, p.2))
            else if e = 'r' then (parseStringBody r).map (fun p => ('\r' :: p.1, p.2))
            else if e = 'b' then (parseStringBody r).map (fun p => (Char.ofNat 8 :: p.1, p.2))
            else if e = 'f' then (parseStringBody r).map (fun p => (Char.ofNat 12 :: p.1, p.2))
            else if e = 'u' then
              match r with
              | h1 :: h2 :: h3 :: h4 :: r2 =>
                  match hexVal h1, hexVal h2, hexVal h3, hexVal h4 with
                  | some v1, some v2, some v3, some v4 =>
                      let n := ((v1 * 16 + v2) * 16 + v3) * 16 + v4
                      if 55296 ≤ n ∧ n < 57344 then
                        .error "surrogate escape outside modelled scope"
                      else (parseStringBody r2).map (fun p => (Char.ofNat n :: p.1, p.2))
                  | _, _, _, _ => .error "Invalid hex escape"
              | _ => .error "Invalid hex escape"
            else .error "Invalid escape"
      else if c.toNat < 32 then .error "Invalid control character"
      else (parseStringBody rest).map (fun p => (c :: p.1, p.2))

/-- Is `c` an ASCII decimal digit. -/
def isDigitChar (c : Char) : Bool := 48 ≤ c.toNat && c.toNat ≤ 57

/-- Numeric value of a digit run. -/
def digitsVal (ds : List Char) : Nat := ds.foldl (fun a c => a * 10 + (c.toNat - 48)) 0

/-- Parse a natural-number token (a nonempty digit run). -/
def parseNatToken (l : List Char) : Except String (Nat × List Char) :=
  let ds := l.takeWhile isDigitChar
  if ds.isEmpty then .error "Expecting value"
  else .ok (digitsVal ds, l.drop ds.length)

/-- Parse an integer token. The model restricts JSON numbers to integers
(the `Json` model has no floats); fraction and exponent parts are outside
the modelled scope. -/
def parseIntToken (l : List Char) : Except String (Int × List Char) :=
  match l with
  | c :: r =>
      if c = '-' then (parseNatToken r).map (fun p => (-(p.1 : Int), p.2))
      else (parseNatToken l).map (fun p => ((p.1 : Int), p.2))
  | [] => .error "Expecting value"

mutual

/-- Recursive-descent JSON value parser (the model of `json.loads`
restricted as documented on the token parsers), with a fuel bound on
recursion depth. -/
def parseValue : Nat → List Char → Except String (Json × List Char)
  | 0, _ => .error "Too much nesting"
  | fuel + 1, l =>
      match skipWS l with
      | [] => .error "Expecting value"
      | c :: r =>
          if c = 'n' then
            match r with
            | 'u' :: 'l' :: 'l' :: r2 => .ok (.null, r2)
            | _ => .error "Expecting value"
          else if c = 't' then
            match r with
            | 'r' :: 'u' :: 'e' :: r2 => .ok (.bool true, r2)
            | _ => .error "Expecting value"
          else if c = 'f' then
            match r with
            | 'a' :: 'l' :: 's' :: 'e' :: r2 => .ok (.bool false, r2)
            | _ => .error "Expecting value"
          else if c = dquo then (parseStringBody r).map (fun p => (.str p.1, p.2))
          else if c = '[' then parseElems fuel r
          else if c = '{' then parseMembers fuel r
          else if c = '-' || isDigitChar c then
            (parseIntToken (c :: r)).map (fun p => (.num p.1, p.2))
          else .error "Expecting value"

/-- Array body after `[`. -/
def parseElems : Nat → List Char → Except String (Json × List Char)
  | 0, _ => .error "Too much nesting"
  | fuel + 1, l =>
      match skipWS l with
      | ']' :: r => .ok (.arr [], r)
      | l2 =>
          match parseValue fuel l2 with
          | .error e => .error e
          | .ok (v, rest) =>
              match parseElemsTail fuel rest with
              | .error e => .error e
              | .ok (vs, r2) => .ok (.arr (v :: vs), r2)

/-- Array continuation: a comma and a value, or the closing bracket. -/
def parseElemsTail : Nat → List Char → Except String (List Json × List Char)
  | 0, _ => .error "Too much nesting"
  | fuel + 1, l =>
      match skipWS l with
      | ']' :: r => .ok ([], r)
      | ',' :: r =>
          match parseValue fuel r with
          | .error e => .error e
          | .ok (v, rest) =>
              match parseElemsTail fuel rest with
              | .error e => .error e
              | .ok (vs, r2) => .ok (v :: vs, r2)
      | _ => .error "Expecting comma delimiter"

/-- Object body after the opening brace. -/
def parseMembers : Nat → List Char → Except String (Json × List Char)
  | 0, _ => .error "Too much nesting"
  | fuel + 1, l =>
      match skipWS l with
      | [] => .error "Expecting property name"
      | c :: r =>
          if c = '}' then .ok (.obj [], r)
          else if c = dquo then
            match parseStringBody r with
            | .error e => .error e
            | .ok (k, r2) =>
                match skipWS r2 with
                | ':' :: r3 =>
                    match parseValue fuel r3 with
                    | .error e => .error e
                    | .ok (v, r4) =>
                        match parseMembersTail fuel r4 with
                        | .error e => .error e
                        | .ok (kvs, r5) => .ok (.obj ((k, v) :: kvs), r5)
                | _ => .error "Expecting colon delimiter"
          else .error "Expecting property name"

/-- Object continuation: a comma and a member, or the closing brace. -/
def parseMembersTail : Nat → List Char → Except String (List (List Char × Json) × List Char)
  | 0, _ => .error "Too much nesting"
  | fuel + 1, l =>
      match skipWS l with
      | [] => .error "Expecting comma delimiter"
      | c :: r =>
          if c = '}' then .ok ([], r)
          else if c = ',' then
            match skipWS r with
            | c2 :: r2 =>
                if c2 = dquo then
                  match parseStringBody r2 with
                  | .error e => .error e
                  | .ok (k, r3) =>
                      match skipWS r3 with
                      | ':' :: r4 =>
                          match parseValue fuel r4 with
                          | .error e => .error e
                          | .ok (v, r5) =>
                              match parseMembersTail fuel r5 with
                              | .error e => .error e
                              | .ok (kvs, r6) => .ok ((k, v) :: kvs, r6)
                      | _ => .error "Expecting colon delimiter"
                else .error "Expecting property name"
            | [] => .error "Expecting property name"
          else .error "Expecting comma delimiter"

end

/-- Written from the claim's words for the Splitter ordering: the
delimiter candidate exists when the last `=` of the trimmed blob sits at
least 5 characters before the end and the text after it has length
between 18 and 30 inclusive; key material is everything after the `=`,
encoded ciphertext everything up to and including it. -/
def delimCandidateSpec (t : List Char) : Option SplitCand :=
  match rfindIdx t '=' with
  | some i =>
      if i + 5 < t.length ∧ 18 ≤ t.length - (i + 1) ∧ t.length - (i + 1) ≤ 30 then
        some (t.drop (i + 1), t.take (i + 1))
      else none
  | none => none

/-- Written from the amended trimming description: drop the leading and
trailing whitespace run, then every leading and trailing double-quote,
then every leading and trailing single-quote, expressed with take/drop
counts rather than the source's reverse/dropWhile idiom. -/
def stripSpec (p : Char → Bool) (l : List Char) : List Char :=
  let l1 := l.drop (l.takeWhile p).length
  l1.take (l1.length - (l1.reverse.takeWhile p).length)

/-- The amended-claim trimming, composed from `stripSpec`. -/
def trimAmendedSpec (l : List Char) : List Char :=
  stripSpec (fun c => c = squo) (stripSpec (fun c => c = dquo) (stripSpec pySpace l))

deriving instance DecidableEq for Except

/-! ## Theorems -/

theorem drop_takeWhile_length (p : Char → Bool) :
    ∀ l : List Char, l.drop (l.takeWhile p).length = l.dropWhile p := by
  intro l
  induction l with
  | nil => rfl
  | cons a l ih =>
      by_cases h : p a
      · simp [List.takeWhile_cons_of_pos h, List.dropWhile_cons_of_pos h, ih]
      · simp [List.takeWhile_cons_of_neg h, List.dropWhile_cons_of_neg h]

theorem take_sub_takeWhile_reverse (p : Char → Bool) (m : List Char) :
    m.take (m.length - (m.reverse.takeWhile p).length) = (m.reverse.dropWhile p).reverse := by
  set tw := m.reverse.takeWhile p with htw
  set dw := m.reverse.dropWhile p with hdw
  have hm : m = dw.reverse ++ tw.reverse := by
    conv_lhs => rw [← List.reverse_reverse m, ← List.takeWhile_append_dropWhile (p := p) (l := m.reverse)]
    rw [List.reverse_append, ← htw, ← hdw]
  rw [hm]
  simp only [List.length_append, List.length_reverse, Nat.add_sub_cancel]
  rw [← List.length_reverse dw, List.take_left]

theorem stripWhile_eq_stripSpec (p : Char → Bool) (l : List Char) :
    stripWhile p l = stripSpec p l := by
  unfold stripWhile stripSpec
  rw [drop_takeWhile_length, take_sub_takeWhile_reverse]

/-- C9: REFUTED as stated. The source trims with Python `strip`, which
removes every leading and trailing quote character, not one matching
layer: a doubly quoted blob loses both layers and a lone unmatched
leading quote is removed as well. -/
theorem c9_trim_counterexample :
    trimBlob [dquo, dquo, 'a', dquo, dquo] = ['a'] ∧
    trimBlob [dquo, dquo, 'a', dquo, dquo] ≠ [dquo, 'a', dquo] ∧
    trimBlob [dquo, 'a', 'b'] = ['a', 'b'] := by
  decide

/-- C9 (amended): before any split candidate is generated the blob is
trimmed of its surrounding whitespace run, then of every leading and
trailing double-quote, then of every leading and trailing single-quote,
matched or not. -/
theorem c9_trim_amended (l : List Char) : trimBlob l = trimAmendedSpec l := by
  unfold trimBlob trimAmendedSpec pyStrip
  rw [stripWhile_eq_stripSpec, stripWhile_eq_stripSpec, stripWhile_eq_stripSpec]

theorem suffixFold_general (s : List Char) (ks : List Nat) (acc : List SplitCand) :
    ks.foldl
      (fun acc k =>
        if s.length ≤ k + 10 then acc
        else acc ++ [(s.drop (s.length - k), s.take (s.length - k))]) acc =
      acc ++ (ks.filter (fun k => k + 10 < s.length)).map
        (fun k => (s.drop (s.length - k), s.take (s.length - k))) := by
  induction ks generalizing acc with
  | nil => simp
  | cons k ks ih =>
      by_cases h : s.length ≤ k + 10
      · have hd : (decide (k + 10 < s.length)) = false := by
          simp only [decide_eq_false_iff_not]
          omega
        simp [List.foldl_cons, List.filter_cons, h, hd, ih]
      · have hd : (decide (k + 10 < s.length)) = true := by
          simp only [decide_eq_true_eq]
          omega
        simp [List.foldl_cons, List.filter_cons, h, hd, ih]

theorem suffixCandidates_eq (s : List Char) :
    suffixCandidates s =
      (keyLenGuesses.filter (fun k => k + 10 < s.length)).map
        (fun k => (s.drop (s.length - k), s.take (s.length - k))) := by
  simpa [suffixCandidates] using suffixFold_general s keyLenGuesses []

/-- C4: CONFIRMED. The suffix strategy produces, for each qualifying key
length in the ordered list [21, 22, 20, 23], the split of the trimmed
blob into a prefix of length `L - k` and a suffix of length `k`; a guess
with `L <= k + 10` contributes no candidate. -/
theorem c4_suffix_lengths (s : List Char) :
    suffixCandidates s =
      (keyLenGuesses.filter (fun k => k + 10 < s.length)).map
        (fun k => (s.drop (s.length - k), s.take (s.length - k))) ∧
    (∀ k, k ∈ keyLenGuesses → k + 10 < s.length →
      (s.drop (s.length - k), s.take (s.length - k)) ∈ suffixCandidates s ∧
      (s.take (s.length - k)).length = s.length - k ∧
      (s.drop (s.length - k)).length = k) := by
  refine ⟨suffixCandidates_eq s, fun k hk hlt => ⟨?_, ?_, ?_⟩⟩
  · rw [suffixCandidates_eq]
    exact List.mem_map_of_mem _ (List.mem_filter.mpr ⟨hk, by simpa using hlt⟩)
  · simp only [List.length_take]
    omega
  · simp only [List.length_drop]
    omega

theorem c4_suffix_lengths_witness :
    21 ∈ keyLenGuesses ∧ 21 + 10 < 45 ∧
    ((List.replicate 45 'A').drop 24, (List.replicate 45 'A').take 24) ∈
      suffixCandidates (List.replicate 45 'A') := by
  refine ⟨by decide, by decide, ?_⟩
  have h := (c4_suffix_lengths (List.replicate 45 'A')).2 21 (by decide) (by simp)
  simpa using h.1

theorem mem_suffixCandidates_partition (t : List Char) (c : SplitCand)
    (h : c ∈ suffixCandidates t) : c.2 ++ c.1 = t := by
  rw [suffixCandidates_eq] at h
  obtain ⟨k, _, rfl⟩ := List.mem_map.mp h
  exact List.take_append_drop _ _

theorem mem_candidatesOf_partition (t : List Char) (c : SplitCand)
    (h : c ∈ candidatesOf t) : c.2 ++ c.1 = t := by
  unfold candidatesOf at h
  cases hrf : rfindIdx t '=' with
  | none =>
      rw [hrf] at h
      exact mem_suffixCandidates_partition t c h
  | some i =>
      rw [hrf] at h
      simp only at h
      split_ifs at h with h1 h2
      · rcases List.mem_cons.mp h with hc | hc
        · subst hc
          exact List.take_append_drop _ _
        · exact mem_suffixCandidates_partition t c hc
      · exact mem_suffixCandidates_partition t c h
      · exact mem_suffixCandidates_partition t c h

theorem firstValidSplit_ok_mem :
    ∀ (cands : List SplitCand) (errs : List (List Char × Nat × String)) (c : SplitCand),
      firstValidSplit cands errs = .ok c → c ∈ cands := by
  intro cands
  induction cands with
  | nil =>
      intro errs c h
      simp [firstValidSplit] at h
  | cons hd tl ih =>
      intro errs c h
      rcases hd with ⟨k, e⟩
      simp only [firstValidSplit] at h
      cases hde : b64decode_loose e with
      | ok bs =>
          rw [hde] at h
          simp only [Except.ok.injEq] at h
          subst h
          exact List.mem_cons_self _ _
      | error msg =>
          rw [hde] at h
          exact List.mem_cons_of_mem _ (ih _ _ h)

/-- C10: CONFIRMED. Every split returned by `split_blob_guess` partitions
the trimmed blob, ciphertext half first and key material as the suffix. -/
theorem c10_split_partitions_blob (b : List Char) (keyStr encB64 : List Char)
    (h : split_blob_guess b = .ok (keyStr, encB64)) :
    encB64 ++ keyStr = trimBlob b := by
  have hmem := firstValidSplit_ok_mem _ _ _ h
  exact mem_candidatesOf_partition _ _ hmem

theorem c10_split_partitions_blob_witness :
    ((List.replicate 32 'A' ++ List.replicate 21 'k') : List Char) =
        trimBlob (List.replicate 32 'A' ++ List.replicate 21 'k') ∧
    split_blob_guess (List.replicate 32 'A' ++ List.replicate 21 'k') =
      .ok (List.replicate 21 'k', List.replicate 32 'A') := by
  have hs : split_blob_guess (List.replicate 32 'A' ++ List.replicate 21 'k') =
      .ok (List.replicate 21 'k', List.replicate 32 'A') := by decide
  refine ⟨?_, hs⟩
  have := c10_split_partitions_blob _ _ _ hs
  simpa using this.symm

theorem candidatesOf_eq_delim (t : List Char) :
    candidatesOf t =
      (match delimCandidateSpec t with
       | some c => c :: suffixCandidates t
       | none => suffixCandidates t) := by
  unfold candidatesOf delimCandidateSpec
  cases hrf : rfindIdx t '=' with
  | none => simp
  | some i =>
      simp only [List.length_drop]
      split_ifs with h1 h2 h3 <;> first | rfl | omega

theorem candidatesOf_delim_some (t : List Char) (c : SplitCand)
    (h : delimCandidateSpec t = some c) :
    candidatesOf t = c :: suffixCandidates t := by
  rw [candidatesOf_eq_delim, h]

theorem candidatesOf_delim_none (t : List Char)
    (h : delimCandidateSpec t = none) :
    candidatesOf t = suffixCandidates t := by
  rw [candidatesOf_eq_delim, h]

theorem firstValidSplit_first_ok :
    ∀ (cands : List SplitCand) (errs : List (List Char × Nat × String)) (i : Nat),
      i < cands.length →
      (∀ j, j < i → (b64decode_loose (cands.getD j ([], [])).2).isOk = false) →
      (b64decode_loose (cands.getD i ([], [])).2).isOk = true →
      firstValidSplit cands errs = .ok (cands.getD i ([], [])) := by
  intro cands
  induction cands with
  | nil => intro errs i h; simp at h
  | cons hd tl ih =>
      intro errs i hi hfail hok
      rcases hd with ⟨k, e⟩
      cases i with
      | zero =>
          simp only [List.getD_cons_zero] at hok ⊢
          simp only [firstValidSplit]
          cases hde : b64decode_loose e with
          | ok bs => rfl
          | error msg =>
              rw [hde] at hok
              simp [Except.isOk, Except.toBool] at hok
      | succ i0 =>
          have h0 := hfail 0 (Nat.succ_pos _)
          simp only [List.getD_cons_zero] at h0
          simp only [firstValidSplit]
          cases hde : b64decode_loose e with
          | ok bs =>
              rw [hde] at h0
              simp [Except.isOk, Except.toBool] at h0
          | error msg =>
              simp only [List.getD_cons_succ] at hok ⊢
              exact ih _ i0 (by simpa using hi)
                (fun j hj => by simpa using hfail (j + 1) (by omega)) hok

/-- C2: CONFIRMED. The Splitter's candidate list has the qualifying
delimiter candidate (last `=` at least 5 characters from the end, key
material length 18 to 30) in front of the suffix-length candidates, the
suffix candidates follow the key-length order 21, 22, 20, 23, and the
first candidate whose ciphertext half decodes under the tolerant decoder
is returned immediately with no backtracking. -/
theorem c2_splitter_order_and_short_circuit :
    (∀ b : List Char, split_blob_guess b = firstValidSplit (candidatesOf (trimBlob b)) []) ∧
    (∀ t c, delimCandidateSpec t = some c → candidatesOf t = c :: suffixCandidates t) ∧
    (∀ t, delimCandidateSpec t = none → candidatesOf t = suffixCandidates t) ∧
    (∀ t, suffixCandidates t =
      (keyLenGuesses.filter (fun k => k + 10 < t.length)).map
        (fun k => (t.drop (t.length - k), t.take (t.length - k)))) ∧
    (∀ cands errs i, i < cands.length →
      (∀ j, j < i → (b64decode_loose (cands.getD j ([], [])).2).isOk = false) →
      (b64decode_loose (cands.getD i ([], [])).2).isOk = true →
      firstValidSplit cands errs = .ok (cands.getD i ([], []))) :=
  ⟨fun _ => rfl, candidatesOf_delim_some, candidatesOf_delim_none, suffixCandidates_eq,
   firstValidSplit_first_ok⟩

theorem c2_witness :
    candidatesOf (List.replicate 10 'B' ++ '=' :: List.replicate 20 'k') =
      (List.replicate 20 'k', List.replicate 10 'B' ++ ['=']) ::
        suffixCandidates (List.replicate 10 'B' ++ '=' :: List.replicate 20 'k') ∧
    firstValidSplit [(['k'], ['A', 'A', 'A', 'A'])] [] = .ok (['k'], ['A', 'A', 'A', 'A']) := by
  constructor
  · have h := c2_splitter_order_and_short_circuit.2.1
      (List.replicate 10 'B' ++ '=' :: List.replicate 20 'k')
      (List.replicate 20 'k', List.replicate 10 'B' ++ ['='])
      (by decide)
    simpa using h
  · have h := c2_splitter_order_and_short_circuit.2.2.2.2
      [(['k'], ['A', 'A', 'A', 'A'])] [] 0 (by decide)
      (fun j hj => absurd hj (by omega)) (by decide)
    simpa using h

theorem locator_head_eq (j : Json) : findRec j = (ppaDFS j).head? := by
  refine findRec.induct
    (fun j => findRec j = (ppaDFS j).head?)
    (fun xs => findRecElems xs = (ppaDFSElems xs).head?)
    (fun kvs => findRecFields kvs = (ppaDFSFields kvs).head?)
    ?_ ?_ ?_ ?_ ?_ ?_ ?_ ?_ ?_ ?_ ?_ j
  · intro kvs pp hpp a ha
    rw [findRec, ppaDFS]
    simp [hpp, ha]
  · intro kvs pp hpp hna ih
    rw [findRec, ppaDFS]
    simp only [hpp]
    cases hka : getKey pp aKey with
    | none => simpa using ih
    | some v =>
        cases v with
        | str s => exact absurd hka (fun h => hna s h)
        | null => simpa using ih
        | bool b => simpa using ih
        | num n => simpa using ih
        | arr xs => simpa using ih
        | obj f => simpa using ih
  · intro kvs hnp ih
    rw [findRec, ppaDFS]
    cases hkp : getKey kvs pagePropsKey with
    | none => simpa using ih
    | some v =>
        cases v with
        | obj pp => exact absurd hkp (fun h => hnp pp h)
        | null => simpa using ih
        | bool b => simpa using ih
        | num n => simpa using ih
        | str s => simpa using ih
        | arr xs => simpa using ih
  · intro xs ih
    rw [findRec, ppaDFS]
    exact ih
  · intro t hno harr
    cases t with
    | obj kvs => exact absurd rfl (hno kvs)
    | arr xs => exact absurd rfl (harr xs)
    | null => simp [findRec, ppaDFS]
    | bool b => simp [findRec, ppaDFS]
    | num n => simp [findRec, ppaDFS]
    | str s => simp [findRec, ppaDFS]
  · simp [findRecElems, ppaDFSElems]
  · intro x rest a hx ih
    rw [findRecElems, ppaDFSElems, hx]
    rw [hx] at ih
    simp [List.head?_append, ← ih]
  · intro x rest hx ih ihrest
    rw [findRecElems, ppaDFSElems, hx]
    rw [hx] at ih
    simp [List.head?_append, ← ih, ihrest]
  · simp [findRecFields, ppaDFSFields]
  · intro k v rest a hv ih
    rw [findRecFields, ppaDFSFields, hv]
    rw [hv] at ih
    simp [List.head?_append, ← ih]
  · intro k v rest hv ih ihrest
    rw [findRecFields, ppaDFSFields, hv]
    rw [hv] at ih
    simp [List.head?_append, ← ih, ihrest]

theorem specPagePropsA_obj (kvs : List (List Char × Json)) :
    specPagePropsA (.obj kvs) = directA kvs := rfl

theorem find_eq_locatorSpec (data : Json) : find_pageprops_a data = locatorSpec data := by
  unfold find_pageprops_a locatorSpec
  cases data with
  | obj kvs =>
      rw [specPagePropsA_obj]
      cases hd : directA kvs with
      | some a => simp [hd]
      | none =>
          simp only [hd]
          cases hp : getKey kvs propsKey with
          | none =>
              simp only [specPropsPagePropsA, hp]
              exact locator_head_eq (.obj kvs)
          | some p =>
              cases p with
              | obj pkvs =>
                  simp only [specPropsPagePropsA, hp, specPagePropsA_obj]
                  cases hd2 : directA pkvs with
                  | some a => simp [hd2]
                  | none =>
                      simp only [hd2]
                      exact locator_head_eq (.obj kvs)
              | null =>
                  simp only [specPropsPagePropsA, hp, specPagePropsA]
                  exact locator_head_eq (.obj kvs)
              | bool b =>
                  simp only [specPropsPagePropsA, hp, specPagePropsA]
                  exact locator_head_eq (.obj kvs)
              | num n =>
                  simp only [specPropsPagePropsA, hp, specPagePropsA]
                  exact locator_head_eq (.obj kvs)
              | str s =>
                  simp only [specPropsPagePropsA, hp, specPagePropsA]
                  exact locator_head_eq (.obj kvs)
              | arr xs =>
                  simp only [specPropsPagePropsA, hp, specPagePropsA]
                  exact locator_head_eq (.obj kvs)
  | null => simpa [specPagePropsA, specPropsPagePropsA] using locator_head_eq .null
  | bool b => simpa [specPagePropsA, specPropsPagePropsA] using locator_head_eq (.bool b)
  | num n => simpa [specPagePropsA, specPropsPagePropsA] using locator_head_eq (.num n)
  | str s => simpa [specPagePropsA, specPropsPagePropsA] using locator_head_eq (.str s)
  | arr xs => simpa [specPagePropsA, specPropsPagePropsA] using locator_head_eq (.arr xs)

theorem directA_some {kvs : List (List Char × Json)} {a : List Char}
    (h : directA kvs = some a) :
    ∃ pp, getKey kvs pagePropsKey = some (.obj pp) ∧ getKey pp aKey = some (.str a) := by
  unfold directA at h
  split at h
  · rename_i x0 pp h1
    split at h
    · rename_i y a2 h2
      simp only [Option.some.injEq] at h
      subst h
      exact ⟨pp, h1, h2⟩
    · simp at h
  · simp at h

theorem ppaDFS_ne_nil_of_spec {d : Json} {a : List Char}
    (h : specPagePropsA d = some a) : ppaDFS d ≠ [] := by
  cases d with
  | obj kvs =>
      rw [specPagePropsA_obj] at h
      obtain ⟨pp, h1, h2⟩ := directA_some h
      rw [ppaDFS]
      simp [h1, h2]
  | null => simp [specPagePropsA] at h
  | bool b => simp [specPagePropsA] at h
  | num n => simp [specPagePropsA] at h
  | str s => simp [specPagePropsA] at h
  | arr xs => simp [specPagePropsA] at h

theorem ppaDFSFields_ne_nil {kvs : List (List Char × Json)} {k0 : List Char} {v : Json}
    (hm : (k0, v) ∈ kvs) (hne : ppaDFS v ≠ []) : ppaDFSFields kvs ≠ [] := by
  induction kvs with
  | nil => simp at hm
  | cons kv rest ih =>
      rcases kv with ⟨k1, v1⟩
      rw [ppaDFSFields]
      rcases List.mem_cons.mp hm with he | hm2
      · cases he
        intro hc
        exact hne (List.append_eq_nil.mp hc).1
      · intro hc
        exact ih hm2 (List.append_eq_nil.mp hc).2

theorem getKey_mem {kvs : List (List Char × Json)} {k : List Char} {p : Json}
    (h : getKey kvs k = some p) : ∃ k0, (k0, p) ∈ kvs := by
  unfold getKey at h
  split at h
  · rename_i x0 pr hf
    simp only [Option.some.injEq] at h
    refine ⟨pr.1, ?_⟩
    have hmem := List.mem_of_find?_eq_some hf
    rw [← h]
    simpa using hmem
  · simp at h

theorem specProps_ne_nil {d : Json} {a : List Char}
    (h : specPropsPagePropsA d = some a) : ppaDFS d ≠ [] := by
  cases d with
  | obj kvs =>
      unfold specPropsPagePropsA at h
      split at h
      · rename_i d0 kvs2 hkv
        injection hkv with hkv2
        subst hkv2
        split at h
        · rename_i x1 p hp
          have hpne := ppaDFS_ne_nil_of_spec h
          obtain ⟨k0, hmem⟩ := getKey_mem hp
          have hfields := ppaDFSFields_ne_nil hmem hpne
          rw [ppaDFS]
          intro hc
          exact hfields (List.append_eq_nil.mp hc).2
        · simp at h
      · rename_i d0 hcontra
        exact absurd rfl (hcontra kvs)
  | null => simp [specPropsPagePropsA] at h
  | bool b => simp [specPropsPagePropsA] at h
  | num n => simp [specPropsPagePropsA] at h
  | str s => simp [specPropsPagePropsA] at h
  | arr xs => simp [specPropsPagePropsA] at h

/-- C7: CONFIRMED. The Locator agrees everywhere with the specified
priority lookup - `pageProps.a`, then `props.pageProps.a`, then the first
string at any nested `pageProps.a` in depth-first order - and returns the
not-found sentinel exactly when no `pageProps` object anywhere in the
value carries a string field `a` (i.e. the depth-first list of such
strings is empty). -/
theorem c7_locator_contract (data : Json) :
    find_pageprops_a data = locatorSpec data ∧
    (find_pageprops_a data = none ↔ ppaDFS data = []) := by
  refine ⟨find_eq_locatorSpec data, ?_, ?_⟩
  · intro h
    rw [find_eq_locatorSpec] at h
    unfold locatorSpec at h
    cases h1 : specPagePropsA data with
    | some a => rw [h1] at h; simp at h
    | none =>
        rw [h1] at h
        cases h2 : specPropsPagePropsA data with
        | some a => rw [h2] at h; simp at h
        | none =>
            rw [h2] at h
            simpa using h
  · intro h
    rw [find_eq_locatorSpec]
    unfold locatorSpec
    cases h1 : specPagePropsA data with
    | some a => exact absurd h (ppaDFS_ne_nil_of_spec h1)
    | none =>
        cases h2 : specPropsPagePropsA data with
        | some a => exact absurd h (specProps_ne_nil h2)
        | none => simp [h]

/-- C8: REFUTED as stated. `main` tests the located blob with Python
truthiness (`if not blob`), so a located EMPTY string is reported as the
locate-error even though the Locator found a string. -/
theorem c8_truthiness_counterexample :
    find_pageprops_a (Json.obj [(pagePropsKey, Json.obj [(aKey, Json.str [])])]) = some [] ∧
    mainLocate (Json.obj [(pagePropsKey, Json.obj [(aKey, Json.str [])])]) =
      .error "Could not find pageProps.a in the provided JSON." := by
  constructor
  · decide
  · decide

/-- C8 (amended): the program terminates with the locate-error exactly
when the Locator returns no string or returns the empty string; it
proceeds past the locate step exactly on a nonempty located string. -/
theorem c8_locate_error_amended (data : Json) :
    (mainLocate data = .error "Could not find pageProps.a in the provided JSON." ↔
      (find_pageprops_a data = none ∨ find_pageprops_a data = some [])) ∧
    (∀ b, mainLocate data = .ok b ↔ (find_pageprops_a data = some b ∧ b ≠ [])) := by
  unfold mainLocate
  cases hf : find_pageprops_a data with
  | none => simp
  | some b0 =>
      cases b0 with
      | nil => simp
      | cons c cs =>
          constructor
          · simp
          · intro b
            constructor
            · intro hok
              simp only [List.isEmpty_cons, if_false] at hok
              cases hok
              exact ⟨rfl, by simp⟩
            · rintro ⟨hsome, hne⟩
              cases hsome
              simp

theorem b64val_encByte : ∀ k, k < 64 → b64val (encByte k) = some k := by decide

theorem b64val_pad : b64val '=' = none := by decide

theorem a2b_step {c : Char} {v : Nat} (rest : List Char) (qp lc pads : Nat)
    (acc : List Nat) (hv : b64val c = some v) :
    a2bBase64 (c :: rest) qp lc pads acc =
      (match qp with
       | 0 => a2bBase64 rest 1 v 0 acc
       | 1 => a2bBase64 rest 2 ((lc * 64 + v) % 16) 0 ((lc * 64 + v) / 16 :: acc)
       | 2 => a2bBase64 rest 3 ((lc * 64 + v) % 4) 0 ((lc * 64 + v) / 4 :: acc)
       | _ => a2bBase64 rest 0 0 0 ((lc * 64 + v) :: acc)) := by
  have hne : c ≠ '=' := by
    intro he
    rw [he, b64val_pad] at hv
    exact Option.noConfusion hv
  rw [a2bBase64]
  simp [hne, hv]

theorem a2b_pad3 (rest : List Char) (lc pads : Nat) (acc : List Nat) :
    a2bBase64 ('=' :: rest) 3 lc pads acc = .ok acc.reverse := by
  rw [a2bBase64]
  have h4 : 4 ≤ 3 + (pads + 1) := by omega
  simp [h4]

theorem a2b_pad2 (lc : Nat) (acc : List Nat) :
    a2bBase64 ['=', '='] 2 lc 0 acc = .ok acc.reverse := by
  rw [a2bBase64]
  rw [if_pos rfl, if_pos (by omega : 2 ≤ 2), if_neg (by omega : ¬4 ≤ 2 + (0 + 1))]
  rw [a2bBase64]
  rw [if_pos rfl, if_pos (by omega : 2 ≤ 2), if_pos (by omega : 4 ≤ 2 + (1 + 1))]

theorem a2b_quad {b0 b1 b2 : Nat} (h0 : b0 < 256) (h1 : b1 < 256) (h2 : b2 < 256)
    (rest : List Char) (acc : List Nat) :
    a2bBase64 (encByte (b0 / 4) :: encByte (b0 % 4 * 16 + b1 / 16) ::
        encByte (b1 % 16 * 4 + b2 / 64) :: encByte (b2 % 64) :: rest) 0 0 0 acc =
      a2bBase64 rest 0 0 0 (b2 :: b1 :: b0 :: acc) := by
  rw [a2b_step _ 0 0 0 _ (b64val_encByte _ (by omega))]
  rw [a2b_step _ 1 _ 0 _ (b64val_encByte _ (by omega))]
  rw [a2b_step _ 2 _ 0 _ (b64val_encByte _ (by omega))]
  rw [a2b_step _ 3 _ 0 _ (b64val_encByte _ (by omega))]
  have e1 : (b0 / 4 * 64 + (b0 % 4 * 16 + b1 / 16)) / 16 = b0 := by omega
  have e2 : (b0 / 4 * 64 + (b0 % 4 * 16 + b1 / 16)) % 16 = b1 / 16 := by omega
  rw [e1, e2]
  have e3 : (b1 / 16 * 64 + (b1 % 16 * 4 + b2 / 64)) / 4 = b1 := by omega
  have e4 : (b1 / 16 * 64 + (b1 % 16 * 4 + b2 / 64)) % 4 = b2 / 64 := by omega
  rw [e3, e4]
  have e5 : b2 / 64 * 64 + b2 % 64 = b2 := by omega
  rw [e5]

theorem a2b_tail2 {b0 b1 : Nat} (h0 : b0 < 256) (h1 : b1 < 256) (acc : List Nat) :
    a2bBase64 [encByte (b0 / 4), encByte (b0 % 4 * 16 + b1 / 16), encByte (b1 % 16 * 4), '=']
        0 0 0 acc =
      .ok (acc.reverse ++ [b0, b1]) := by
  rw [a2b_step _ 0 0 0 _ (b64val_encByte _ (by omega))]
  rw [a2b_step _ 1 _ 0 _ (b64val_encByte _ (by omega))]
  rw [a2b_step _ 2 _ 0 _ (b64val_encByte _ (by omega))]
  have e1 : (b0 / 4 * 64 + (b0 % 4 * 16 + b1 / 16)) / 16 = b0 := by omega
  have e2 : (b0 / 4 * 64 + (b0 % 4 * 16 + b1 / 16)) % 16 = b1 / 16 := by omega
  rw [e1, e2]
  have e3 : (b1 / 16 * 64 + b1 % 16 * 4) / 4 = b1 := by omega
  rw [e3]
  rw [a2b_pad3]
  simp

theorem a2b_tail1 {b0 : Nat} (h0 : b0 < 256) (acc : List Nat) :
    a2bBase64 [encByte (b0 / 4), encByte (b0 % 4 * 16), '=', '='] 0 0 0 acc =
      .ok (acc.reverse ++ [b0]) := by
  rw [a2b_step _ 0 0 0 _ (b64val_encByte _ (by omega))]
  rw [a2b_step _ 1 _ 0 _ (b64val_encByte _ (by omega))]
  have e1 : (b0 / 4 * 64 + b0 % 4 * 16) / 16 = b0 := by omega
  rw [e1]
  rw [a2b_pad2]
  simp

theorem a2b_encode (bs : List Nat) (h : ∀ b ∈ bs, b < 256) :
    ∀ acc : List Nat, a2bBase64 (b64encode bs) 0 0 0 acc = .ok (acc.reverse ++ bs) := by
  induction bs using b64encode.induct with
  | case1 b0 b1 b2 rest ih =>
      intro acc
      rw [b64encode, a2b_quad (h b0 (by simp)) (h b1 (by simp)) (h b2 (by simp))]
      rw [ih (fun b hb => h b (by simp [hb]))]
      simp
  | case2 b0 b1 =>
      intro acc
      rw [b64encode, a2b_tail2 (h b0 (by simp)) (h b1 (by simp))]
  | case3 b0 =>
      intro acc
      rw [b64encode, a2b_tail1 (h b0 (by simp))]
  | case4 =>
      intro acc
      rw [b64encode, a2bBase64]
      simp

theorem encByte_mem (k : Nat) (h : k < 64) : encByte k ∈ b64chars := by
  revert k
  decide

theorem b64encode_chars (bs : List Nat) (h : ∀ b ∈ bs, b < 256) :
    ∀ c ∈ b64encode bs, c ∈ b64chars ∨ c = '=' := by
  induction bs using b64encode.induct with
  | case1 b0 b1 b2 rest ih =>
      intro c hc
      rw [b64encode] at hc
      have hb0 := h b0 (by simp)
      have hb1 := h b1 (by simp)
      have hb2 := h b2 (by simp)
      simp only [List.mem_cons] at hc
      rcases hc with rfl | rfl | rfl | rfl | hc
      · exact Or.inl (encByte_mem _ (by omega))
      · exact Or.inl (encByte_mem _ (by omega))
      · exact Or.inl (encByte_mem _ (by omega))
      · exact Or.inl (encByte_mem _ (by omega))
      · exact ih (fun b hb => h b (by simp [hb])) c hc
  | case2 b0 b1 =>
      intro c hc
      have hb0 := h b0 (by simp)
      have hb1 := h b1 (by simp)
      rw [b64encode] at hc
      simp only [List.mem_cons] at hc
      rcases hc with rfl | rfl | rfl | rfl | hc
      · exact Or.inl (encByte_mem _ (by omega))
      · exact Or.inl (encByte_mem _ (by omega))
      · exact Or.inl (encByte_mem _ (by omega))
      · exact Or.inr rfl
      · simp at hc
  | case3 b0 =>
      intro c hc
      have hb0 := h b0 (by simp)
      rw [b64encode] at hc
      simp only [List.mem_cons] at hc
      rcases hc with rfl | rfl | rfl | rfl | hc
      · exact Or.inl (encByte_mem _ (by omega))
      · exact Or.inl (encByte_mem _ (by omega))
      · exact Or.inr rfl
      · exact Or.inr rfl
      · simp at hc
  | case4 =>
      intro c hc
      rw [b64encode] at hc
      simp at hc

theorem b64chars_benign :
    ∀ c ∈ b64chars, pySpace c = false ∧ c ≠ '-' ∧ c ≠ '_' ∧ c.toNat < 128 ∧
      c ≠ dquo ∧ c ≠ squo ∧ c ≠ '=' := by
  decide

theorem pad_benign :
    pySpace '=' = false ∧ '=' ≠ '-' ∧ '=' ≠ '_' ∧ ('=').toNat < 128 := by
  decide

theorem stripWhile_id {p : Char → Bool} {l : List Char} (h : ∀ c ∈ l, p c = false) :
    stripWhile p l = l := by
  unfold stripWhile
  have h1 : l.dropWhile p = l := by
    cases l with
    | nil => rfl
    | cons a t => exact List.dropWhile_cons_of_neg (by simp [h a (by simp)])
  rw [h1]
  have h2 : l.reverse.dropWhile p = l.reverse := by
    cases hr : l.reverse with
    | nil => rfl
    | cons a t =>
        refine List.dropWhile_cons_of_neg ?_
        have ha : a ∈ l := by
          have : a ∈ l.reverse := by rw [hr]; simp
          simpa using this
        simp [h a ha]
  rw [h2, List.reverse_reverse]

theorem map_tr_id {l : List Char} (h : ∀ c ∈ l, c ≠ '-' ∧ c ≠ '_') :
    l.map (fun c => if c = '-' then '+' else if c = '_' then '/' else c) = l := by
  induction l with
  | nil => rfl
  | cons a t ih =>
      have ha := h a (by simp)
      simp only [List.map_cons]
      rw [if_neg ha.1, if_neg ha.2, ih (fun c hc => h c (by simp [hc]))]

theorem b64encode_length (bs : List Nat) :
    (b64encode bs).length % 4 = 0 := by
  induction bs using b64encode.induct with
  | case1 b0 b1 b2 rest ih =>
      rw [b64encode]
      simp only [List.length_cons]
      omega
  | case2 b0 b1 => rw [b64encode]; simp
  | case3 b0 => rw [b64encode]; simp
  | case4 => rw [b64encode]; simp

/-- The tolerant decoder inverts standard padded base64 encoding. -/
theorem b64_roundtrip_loose (bs : List Nat) (h : ∀ b ∈ bs, b < 256) :
    b64decode_loose (b64encode bs) = .ok bs := by
  unfold b64decode_loose
  have hchars := b64encode_chars bs h
  have hstrip : pyStrip (b64encode bs) = b64encode bs := by
    unfold pyStrip
    refine stripWhile_id (fun c hc => ?_)
    rcases hchars c hc with hm | rfl
    · exact (b64chars_benign c hm).1
    · exact pad_benign.1
  rw [hstrip]
  have hmap : (b64encode bs).map
      (fun c => if c = '-' then '+' else if c = '_' then '/' else c) = b64encode bs := by
    refine map_tr_id (fun c hc => ?_)
    rcases hchars c hc with hm | rfl
    · exact ⟨(b64chars_benign c hm).2.1, (b64chars_benign c hm).2.2.1⟩
    · exact ⟨pad_benign.2.1, pad_benign.2.2.1⟩
  rw [hmap]
  have hlen := b64encode_length bs
  simp only [hlen]
  rw [if_neg (by omega : ¬(0 : Nat) = 1), if_neg (by omega : ¬((0 : Nat) = 2 ∨ (0 : Nat) = 3))]
  unfold pyB64decode
  have hascii : (b64encode bs).any (fun c => 128 ≤ c.toNat) = false := by
    rw [List.any_eq_false]
    intro c hc
    simp only [decide_eq_true_eq]
    rcases hchars c hc with hm | rfl
    · have := (b64chars_benign c hm).2.2.2.1
      omega
    · have := pad_benign.2.2.2
      omega
  rw [if_neg (by simp [hascii])]
  simpa using a2b_encode bs h []

/-- C5: CONFIRMED. The tolerant decoder inverts standard padded base64
encoding on every byte string. -/
theorem c5_b64_roundtrip (bs : List Nat) (h : ∀ b ∈ bs, b < 256) :
    b64decode_loose (b64encode bs) = .ok bs := b64_roundtrip_loose bs h

theorem c5_b64_roundtrip_witness :
    (∀ b ∈ [1, 2, 3, 4, 5], b < 256) ∧
    b64decode_loose (b64encode [1, 2, 3, 4, 5]) = .ok [1, 2, 3, 4, 5] :=
  ⟨by decide, c5_b64_roundtrip [1, 2, 3, 4, 5] (by decide)⟩
theorem foldl_invariant {α β : Type} (P : α → Prop) (f : α → β → α) (l : List β) (s : α)
    (h0 : P s) (hstep : ∀ t b, P t → P (f t b)) : P (l.foldl f s) := by
  induction l generalizing s with
  | nil => exact h0
  | cons b bs ih => exact ih _ (hstep s b h0)

theorem b64encode_ne_nil : ∀ bs : List Nat, bs ≠ [] → b64encode bs ≠ [] := by
  intro bs hne
  match bs with
  | b0 :: b1 :: b2 :: rest => rw [b64encode]; simp
  | [b0, b1] => rw [b64encode]; simp
  | [b0] => rw [b64encode]; simp

